import Mathlib

/-!
Verification of `estnltk/mw_verbs/utils.py`: word-token indexing, clause
grouping, and the `WordTemplate` rule-matching engine.

Modelling conventions:
* A JSON token dict becomes the record `Token`: its string-valued fields
  (such as `text`) live in an association list `fields`; the special keys
  `analysis`, `wordID`, `clauseID` are explicit `Option`-valued components,
  `none` meaning the key is absent from the dict.
* A compiled regular expression is abstracted as its observable behaviour
  under `re.match`: a predicate `String → Bool` that answers whether the
  pattern matches some initial segment of the given string.  The matching
  code only ever consults this predicate.
* Python `assert` failures (the error surface of the module) become
  `Except UtilsError` results.
* In-place list mutation becomes returning the updated sentence; for
  `removeWordIDs`, whose partial mutation on failure is observable, the
  result type `RemoveResult` also carries the sentence state at the point
  of failure.
-/

namespace Estnltk

/-- Abstract error kinds raised by the module (Python `assert`/`KeyError`). -/
inductive UtilsError where
  | missingField (field : String)
  | indexMismatch
  deriving DecidableEq

/-- One candidate morphological analysis of a token: a record of
string-valued fields (`root`, `partofspeech`, `ending`, `form`, `clitic`,
`lemma`, ...), modelled as an association list mirroring the JSON dict. -/
structure Analysis where
  fields : List (String × String)
  deriving DecidableEq

/-- A word token: string-valued token-scoped fields (such as `text`), an
optional list of morphological analyses, and the optional `wordID` /
`clauseID` keys managed by the indexing utilities. -/
structure Token where
  fields : List (String × String)
  analysis : Option (List Analysis)
  wordID : Option Nat
  clauseID : Option Nat
  deriving DecidableEq

/-- Association-list lookup, mirroring Python `d[k]` guarded by `k in d`. -/
def lookupField : List (String × String) → String → Option String
  | [], _ => none
  | (k, v) :: rest, f => if k = f then some v else lookupField rest f

-- ================================================================
--  Indexing word tokens (addWordIDs / removeWordIDs / getWordIDrange)
-- ================================================================

/-- The function `addWordIDs`, with the loop counter made explicit: for each token, if a
`wordID` is already present it must equal the token's position (else the
`assert` fires), then `wordID` is set to the position. -/
def addWordIDsFrom : Nat → List Token → Except UtilsError (List Token)
  | _, [] => .ok []
  | i, t :: ts =>
    match t.wordID with
    | some w =>
      if w = i then
        match addWordIDsFrom (i + 1) ts with
        | .ok ts' => .ok ({ t with wordID := some i } :: ts')
        | .error e => .error e
      else .error .indexMismatch
    | none =>
      match addWordIDsFrom (i + 1) ts with
      | .ok ts' => .ok ({ t with wordID := some i } :: ts')
      | .error e => .error e

/-- The function `addWordIDs(jsonSent)` from the source: number the tokens 0,1,2,... -/
def addWordIDs (sent : List Token) : Except UtilsError (List Token) :=
  addWordIDsFrom 0 sent

/-- Result of `removeWordIDs`: since the Python function mutates the
sentence in place, a failure (`del` on a missing key) leaves the tokens
already processed in their cleared state; `failed` carries that partially
cleared sentence. -/
inductive RemoveResult where
  | ok (sent : List Token)
  | failed (sent : List Token)
  deriving DecidableEq

/-- The function `removeWordIDs(jsonSent)`: delete `wordID` from every token, left to
right; deleting a missing `wordID` fails, leaving the prefix cleared. -/
def removeWordIDs : List Token → RemoveResult
  | [] => .ok []
  | t :: ts =>
    match t.wordID with
    | none => .failed (t :: ts)
    | some _ =>
      match removeWordIDs ts with
      | .ok ts' => .ok ({ t with wordID := none } :: ts')
      | .failed ts' => .failed ({ t with wordID := none } :: ts')

/-- The function `getWordIDrange(a, b, jsonSent)`: every token must carry a `wordID`
(the `assert` runs for every token); collect, in order, the tokens whose
`wordID` lies in the half-open interval `[a, b)`. -/
def getWordIDrange (a b : Nat) : List Token → Except UtilsError (List Token)
  | [] => .ok []
  | t :: ts =>
    match t.wordID with
    | none => .error (.missingField "wordID")
    | some w =>
      match getWordIDrange a b ts with
      | .ok rest => .ok (if a ≤ w ∧ w < b then t :: rest else rest)
      | .error e => .error e

-- ================================================================
--  Separating a sentence into clauses (getClausesByClauseIDs)
-- ================================================================

/-- One step of building the clause map: Python dict insertion semantics.
If the key is already present, append the token to that key's group
(position of the key unchanged); otherwise add a new key at the end. -/
def insertToken (groups : List (Nat × List Token)) (c : Nat) (t : Token) :
    List (Nat × List Token) :=
  match groups with
  | [] => [(c, [t])]
  | (d, g) :: rest =>
    if d = c then (d, g ++ [t]) :: rest else (d, g) :: insertToken rest c t

/-- The function `getClausesByClauseIDs(jsonSent)`: assert that every token carries a
`clauseID`, then group the tokens by `clauseID` into an insertion-ordered
dict, modelled as an association list built by `insertToken`. -/
def getClausesByClauseIDs (sent : List Token) :
    Except UtilsError (List (Nat × List Token)) :=
  if sent.all (fun t => t.clauseID.isSome) then
    .ok (sent.foldl (fun gs t => insertToken gs (t.clauseID.getD 0) t) [])
  else .error (.missingField "clauseID")

-- ================================================================
--  WordTemplate: rule registry and matcher
-- ================================================================

/-- A registered rule: a field name together with the compiled pattern's
prefix-match predicate (the behaviour of `compiled.match(value) != None`). -/
abbrev Rule := String × (String → Bool)

/-- The fixed set of analysis-scoped field names
(`WordTemplate.analysisFields`). -/
def analysisFields : List String :=
  ["root", "partofspeech", "ending", "form", "clitic", "lemma"]

/-- The rule registry: `analysisRules` and `otherRules` are each `none`
(Python `None`) until the first rule is routed to them, then `some` dict,
modelled as an association list with unique keys. -/
structure WordTemplate where
  analysisRules : Option (List Rule)
  otherRules : Option (List Rule)

/-- Dict insertion with last-write-wins on the field name, mirroring
`self.analysisRules[field] = compiled`. -/
def insertRule (rules : List Rule) (field : String) (pat : String → Bool) :
    List Rule :=
  match rules with
  | [] => [(field, pat)]
  | (f, p) :: rest =>
    if f = field then (field, pat) :: rest else (f, p) :: insertRule rest field pat

/-- The method `WordTemplate.addRule`: route the compiled rule to the analysis-scoped
or token-scoped partition according to the field name. -/
def WordTemplate.addRule (wt : WordTemplate) (field : String)
    (pat : String → Bool) : WordTemplate :=
  if analysisFields.contains field then
    { wt with analysisRules := some (insertRule (wt.analysisRules.getD []) field pat) }
  else
    { wt with otherRules := some (insertRule (wt.otherRules.getD []) field pat) }

/-- The constructor `WordTemplate.__init__(newRules)`: start from both partitions empty
(Python class attributes `None`) and `addRule` each pair in turn. -/
def WordTemplate.init (newRules : List (String × (String → Bool))) : WordTemplate :=
  newRules.foldl (fun wt r => wt.addRule r.1 r.2) ⟨none, none⟩

/-- Evaluation of one token-scoped rule on a token:
`field in tokenJson and (pattern.match(tokenJson[field]) != None)`. -/
def otherFieldMatch (tok : Token) (r : Rule) : Bool :=
  match lookupField tok.fields r.1 with
  | some v => r.2 v
  | none => false

/-- Evaluation of one analysis-scoped rule on one analysis: a missing field
is matched as the empty string
(`value = analysis[field] if field in analysis else ""`). -/
def analysisFieldMatch (a : Analysis) (r : Rule) : Bool :=
  r.2 ((lookupField a.fields r.1).getD "")

/-- The analysis-scoped half of `WordTemplate.matches` (the body of the
`if self.analysisRules != None` block, with the final `return False`):
requires the token to carry `analysis`, and succeeds iff at least one
analysis satisfies every analysis-scoped rule (the inner loop's `break` is
the short-circuit of `List.all`). -/
def matchesAnalysisPart (wt : WordTemplate) (tok : Token) : Except UtilsError Bool :=
  match wt.analysisRules with
  | some arules =>
    match tok.analysis with
    | none => .error (.missingField "analysis")
    | some As => .ok (As.any fun a => arules.all fun r => analysisFieldMatch a r)
  | none => .ok false

/-- The method `WordTemplate.matches(tokenJson)`: token-scoped rules gate first (an
empty or failing batch returns `False`; a passing batch returns `True`
immediately when no analysis-scoped rules exist), then the analysis-scoped
rules are checked existentially over the token's analyses. -/
def WordTemplate.matches (wt : WordTemplate) (tok : Token) : Except UtilsError Bool :=
  match wt.otherRules with
  | some orules =>
    let om := orules.map (otherFieldMatch tok)
    if om.isEmpty ∨ ¬ om.all id then .ok false
    else
      match wt.analysisRules with
      | none => .ok true
      | some _ => matchesAnalysisPart wt tok
  | none => matchesAnalysisPart wt tok

/-- The method `WordTemplate.matchingAnalyses(tokenJson)`: same token-scoped gate as
`matches` but returning `[]` on failure; then the sublist of analyses
satisfying all analysis-scoped rules (`if matches and all(matches)`); `[]`
when no analysis-scoped rules are registered. -/
def WordTemplate.matchingAnalyses (wt : WordTemplate) (tok : Token) :
    Except UtilsError (List Analysis) :=
  match wt.otherRules with
  | some orules =>
    let om := orules.map (otherFieldMatch tok)
    if om.isEmpty ∨ ¬ om.all id then .ok []
    else
      match wt.analysisRules with
      | some arules =>
        match tok.analysis with
        | none => .error (.missingField "analysis")
        | some As =>
          .ok (As.filter fun a => ¬ arules.isEmpty ∧ arules.all fun r => analysisFieldMatch a r)
      | none => .ok []
  | none =>
    match wt.analysisRules with
    | some arules =>
      match tok.analysis with
      | none => .error (.missingField "analysis")
      | some As =>
        .ok (As.filter fun a => ¬ arules.isEmpty ∧ arules.all fun r => analysisFieldMatch a r)
    | none => .ok []

/-- The method `WordTemplate.matchingPositions(tokenArray)`, with the loop counter made
explicit: indices of the tokens on which `matches` returns `True`. -/
def matchingPositionsFrom (wt : WordTemplate) : Nat → List Token → Except UtilsError (List Nat)
  | _, [] => .ok []
  | i, t :: ts =>
    match wt.matches t with
    | .error e => .error e
    | .ok b =>
      match matchingPositionsFrom wt (i + 1) ts with
      | .error e => .error e
      | .ok rest => .ok (if b then i :: rest else rest)

/-- The method `WordTemplate.matchingPositions(tokenArray)` from the source. -/
def WordTemplate.matchingPositions (wt : WordTemplate) (toks : List Token) :
    Except UtilsError (List Nat) :=
  matchingPositionsFrom wt 0 toks

/-- The method `WordTemplate.matchingTokens(tokenArray)`: the tokens on which `matches`
returns `True`, in input order. -/
def WordTemplate.matchingTokens (wt : WordTemplate) : List Token → Except UtilsError (List Token)
  | [] => .ok []
  | t :: ts =>
    match wt.matches t with
    | .error e => .error e
    | .ok b =>
      match wt.matchingTokens ts with
      | .error e => .error e
      | .ok rest => .ok (if b then t :: rest else rest)

-- ================================================================
--  Supporting lemmas
-- ================================================================

/-- The helper `insertRule` never produces an empty dict. -/
theorem insertRule_ne_nil (rules : List Rule) (f : String) (p : String → Bool) :
    insertRule rules f p ≠ [] := by
  cases rules with
  | nil => simp [insertRule]
  | cons r rest =>
    obtain ⟨f', p'⟩ := r
    simp only [insertRule]
    split <;> simp

/-- The method `addRule` never leaves a partition as an empty dict. -/
theorem addRule_no_empty_partition (wt : WordTemplate) (f : String) (p : String → Bool)
    (h : wt.analysisRules ≠ some [] ∧ wt.otherRules ≠ some []) :
    (wt.addRule f p).analysisRules ≠ some [] ∧ (wt.addRule f p).otherRules ≠ some [] := by
  unfold WordTemplate.addRule
  split <;> exact ⟨by simp [insertRule_ne_nil, h.1, h.2], by simp [insertRule_ne_nil, h.1, h.2]⟩

/-- Any rule set built through the constructor has no empty-dict partition:
each partition is either absent (`none`) or holds at least one rule.  This
justifies reading "the partition holds no rule" as the partition being
absent. -/
theorem init_no_empty_partition (rules : List (String × (String → Bool))) :
    (WordTemplate.init rules).analysisRules ≠ some [] ∧
    (WordTemplate.init rules).otherRules ≠ some [] := by
  unfold WordTemplate.init
  have main : ∀ (rs : List (String × (String → Bool))) (wt : WordTemplate),
      wt.analysisRules ≠ some [] ∧ wt.otherRules ≠ some [] →
      (rs.foldl (fun wt r => wt.addRule r.1 r.2) wt).analysisRules ≠ some [] ∧
      (rs.foldl (fun wt r => wt.addRule r.1 r.2) wt).otherRules ≠ some [] := by
    intro rs
    induction rs with
    | nil => intro wt h; exact h
    | cons r rest ih =>
      intro wt h
      exact ih (wt.addRule r.1 r.2) (addRule_no_empty_partition wt r.1 r.2 h)
  exact main rules ⟨none, none⟩ ⟨by simp, by simp⟩

/-- When every token-scoped rule passes on a token and at least one such
rule is registered, the `otherMatches` batch is nonempty and all-true. -/
theorem gate_passes (tok : Token) (orules : List Rule) (hne : orules ≠ [])
    (hpass : ∀ r ∈ orules, otherFieldMatch tok r = true) :
    (orules.map (otherFieldMatch tok)).isEmpty = false ∧
    (orules.map (otherFieldMatch tok)).all id = true := by
  constructor
  · cases orules with
    | nil => exact absurd rfl hne
    | cons _ _ => rfl
  · rw [List.all_eq_true]
    intro b hb
    rw [List.mem_map] at hb
    obtain ⟨r, hr, hrb⟩ := hb
    rw [← hrb]
    exact hpass r hr

/-- When some token-scoped rule fails on a token, the `otherMatches` batch
is not all-true. -/
theorem gate_fails (tok : Token) (orules : List Rule) (r : Rule)
    (hr : r ∈ orules) (hfail : otherFieldMatch tok r = false) :
    (orules.map (otherFieldMatch tok)).all id = false := by
  cases hcase : (orules.map (otherFieldMatch tok)).all id with
  | false => rfl
  | true =>
    rw [List.all_eq_true] at hcase
    have hmem : otherFieldMatch tok r ∈ orules.map (otherFieldMatch tok) :=
      List.mem_map_of_mem (otherFieldMatch tok) hr
    have := hcase _ hmem
    rw [hfail] at this
    exact absurd this (by simp)

-- ================================================================
--  Claim theorems: the matcher (C1 - C5)
-- ================================================================

/-- C5: a rule set in which neither the analysis-scoped nor the
token-scoped partition holds any rule (both partitions absent, the only
no-rule state the registry can produce) matches no token: `matches`
returns `false` for every token. -/
theorem matches_empty_ruleset (wt : WordTemplate) (tok : Token)
    (ha : wt.analysisRules = none) (ho : wt.otherRules = none) :
    wt.matches tok = .ok false := by
  simp [WordTemplate.matches, matchesAnalysisPart, ha, ho]

/-- Witness for C5 at the rule set built from no rules and a concrete token. -/
theorem matches_empty_ruleset_witness :
    (WordTemplate.init []).matches ⟨[("text", "abc")], none, none, none⟩ = .ok false :=
  matches_empty_ruleset (WordTemplate.init []) ⟨[("text", "abc")], none, none, none⟩ rfl rfl

/-- C2: token-scoped gating: if any token-scoped rule fails on the token
(its field absent, or its pattern rejecting the field's value — both are
`otherFieldMatch … = false`), `matches` returns `false`, regardless of the
analysis-scoped rules and of the token's analyses. -/
theorem matches_token_gate_blocks (wt : WordTemplate) (tok : Token)
    (orules : List Rule) (r : Rule)
    (ho : wt.otherRules = some orules) (hr : r ∈ orules)
    (hfail : otherFieldMatch tok r = false) :
    wt.matches tok = .ok false := by
  have hall := gate_fails tok orules r hr hfail
  simp [WordTemplate.matches, ho, hall]

/-- Witness for C2: the token-scoped rule on `text` rejects `"abc"`, so the
token is rejected even though its analysis satisfies the
`partofspeech` rule. -/
theorem matches_token_gate_blocks_witness :
    (WordTemplate.init [("text", fun s => s == "z"), ("partofspeech", fun s => s == "V")]).matches
      ⟨[("text", "abc")], some [⟨[("partofspeech", "V")]⟩], none, none⟩ = .ok false :=
  matches_token_gate_blocks _ _ [("text", fun s => s == "z")] ("text", fun s => s == "z")
    rfl (by simp) rfl

/-- C1: existential matching over ambiguous analyses: when the token
carries an `analysis` list, the rule set has at least one analysis-scoped
rule, and its token-scoped rules (if any) all pass on the token, `matches`
returns the boolean "some analysis satisfies every analysis-scoped rule"
(a field missing from an analysis being matched as the empty string inside
`analysisFieldMatch`); in particular it returns `true` iff at least one
analysis entry satisfies all analysis-scoped rules. -/
theorem matches_existential (wt : WordTemplate) (tok : Token)
    (As : List Analysis) (arules : List Rule)
    (ha : tok.analysis = some As)
    (har : wt.analysisRules = some arules) (hane : arules ≠ [])
    (hother : ∀ orules, wt.otherRules = some orules →
      orules ≠ [] ∧ ∀ r ∈ orules, otherFieldMatch tok r = true) :
    wt.matches tok = .ok (As.any fun a => arules.all fun r => analysisFieldMatch a r) ∧
    (wt.matches tok = .ok true ↔
      ∃ a ∈ As, ∀ r ∈ arules, analysisFieldMatch a r = true) := by
  have hmain : wt.matches tok =
      .ok (As.any fun a => arules.all fun r => analysisFieldMatch a r) := by
    cases hcase : wt.otherRules with
    | none => simp [WordTemplate.matches, hcase, matchesAnalysisPart, har, ha]
    | some orules =>
      obtain ⟨hne, hpass⟩ := hother orules hcase
      obtain ⟨hemp, hall⟩ := gate_passes tok orules hne hpass
      simp [WordTemplate.matches, hcase, hemp, hall, matchesAnalysisPart, har, ha]
  refine ⟨hmain, ?_⟩
  rw [hmain]
  simp [List.any_eq_true, List.all_eq_true]

/-- Witness for C1: two analyses, `partofspeech` `"V"` and `"S"`; the rule
`partofspeech = "S"` accepts the token because the second analysis
satisfies it. -/
theorem matches_existential_witness :
    (WordTemplate.init [("partofspeech", fun s => s == "S")]).matches
      ⟨[("text", "tee")], some [⟨[("partofspeech", "V")]⟩, ⟨[("partofspeech", "S")]⟩], none, none⟩ =
      .ok true :=
  (matches_existential _ _ [⟨[("partofspeech", "V")]⟩, ⟨[("partofspeech", "S")]⟩]
      [("partofspeech", fun s => s == "S")] rfl rfl (by simp)
      (fun orules h => by simp [WordTemplate.init, WordTemplate.addRule, analysisFields,
        insertRule] at h)).2.mpr
    ⟨⟨[("partofspeech", "S")]⟩, by simp, by intro r hr; simp at hr; rw [hr]; rfl⟩

/-- C4: asymmetry between `matchingAnalyses` and `matches` when only
token-scoped rules are registered and they all pass: `matchingAnalyses`
returns the empty list while `matches` returns `true` on the same pair. -/
theorem matchingAnalyses_matches_asymmetry (wt : WordTemplate) (tok : Token)
    (orules : List Rule)
    (ho : wt.otherRules = some orules) (hne : orules ≠ [])
    (hpass : ∀ r ∈ orules, otherFieldMatch tok r = true)
    (ha : wt.analysisRules = none) :
    wt.matchingAnalyses tok = .ok [] ∧ wt.matches tok = .ok true := by
  obtain ⟨hemp, hall⟩ := gate_passes tok orules hne hpass
  constructor
  · simp [WordTemplate.matchingAnalyses, ho, ha, hemp, hall]
  · simp [WordTemplate.matches, ho, ha, hemp, hall]

/-- Witness for C4: a passing `text` rule and no analysis-scoped rules. -/
theorem matchingAnalyses_matches_asymmetry_witness :
    (WordTemplate.init [("text", fun s => s == "abc")]).matchingAnalyses
      ⟨[("text", "abc")], some [⟨[("partofspeech", "V")]⟩], none, none⟩ = .ok [] ∧
    (WordTemplate.init [("text", fun s => s == "abc")]).matches
      ⟨[("text", "abc")], some [⟨[("partofspeech", "V")]⟩], none, none⟩ = .ok true :=
  matchingAnalyses_matches_asymmetry _ _ [("text", fun s => s == "abc")] rfl (by simp)
    (by intro r hr; simp at hr; rw [hr]; rfl) rfl

/-- Counterexample to C3 as stated: a rule set with an analysis-scoped rule
whose token-scoped rule fails on a token lacking `analysis`: `matches`
returns the boolean `false` instead of failing with the missing-field
error. -/
theorem matches_missing_analysis_cex :
    (WordTemplate.init [("text", fun s => s == "z"), ("partofspeech", fun s => s == "V")]).analysisRules ≠ none ∧
    (Token.mk [("text", "abc")] none none none).analysis = none ∧
    (WordTemplate.init [("text", fun s => s == "z"), ("partofspeech", fun s => s == "V")]).matches
      (Token.mk [("text", "abc")] none none none) = .ok false := by
  refine ⟨by simp [WordTemplate.init, WordTemplate.addRule, analysisFields, insertRule], rfl, rfl⟩

/-- C3 (amended): with at least one analysis-scoped rule registered, and
the token-scoped rules (if any) all passing on the token, `matches` on a
token lacking the `analysis` field fails with the missing-field error. -/
theorem matches_missing_analysis_error (wt : WordTemplate) (tok : Token)
    (arules : List Rule)
    (har : wt.analysisRules = some arules) (hane : arules ≠ [])
    (ha : tok.analysis = none)
    (hother : ∀ orules, wt.otherRules = some orules →
      orules ≠ [] ∧ ∀ r ∈ orules, otherFieldMatch tok r = true) :
    wt.matches tok = .error (.missingField "analysis") := by
  cases hcase : wt.otherRules with
  | none => simp [WordTemplate.matches, hcase, matchesAnalysisPart, har, ha]
  | some orules =>
    obtain ⟨hne, hpass⟩ := hother orules hcase
    obtain ⟨hemp, hall⟩ := gate_passes tok orules hne hpass
    simp [WordTemplate.matches, hcase, hemp, hall, matchesAnalysisPart, har, ha]

/-- Witness for the amended C3: analysis-scoped rule only, token without
`analysis`. -/
theorem matches_missing_analysis_error_witness :
    (WordTemplate.init [("partofspeech", fun s => s == "V")]).matches
      ⟨[("text", "abc")], none, none, none⟩ = .error (.missingField "analysis") :=
  matches_missing_analysis_error _ _ [("partofspeech", fun s => s == "V")] rfl (by simp) rfl
    (fun orules h => by simp [WordTemplate.init, WordTemplate.addRule, analysisFields,
      insertRule] at h)

-- ================================================================
--  Claim theorems: the indexer (C7, C8, C10)
-- ================================================================

/-- The sentence produced by a successful numbering pass starting at `n`. -/
def setIDsFrom : Nat → List Token → List Token
  | _, [] => []
  | n, t :: ts => { t with wordID := some n } :: setIDsFrom (n + 1) ts

/-- On a sentence with no pre-existing `wordID`s, the numbering pass
starting at `n` succeeds and numbers the tokens `n, n+1, ...`. -/
theorem addWordIDsFrom_fresh (sent : List Token) (h : ∀ t ∈ sent, t.wordID = none) :
    ∀ n, addWordIDsFrom n sent = .ok (setIDsFrom n sent) := by
  induction sent with
  | nil => intro n; rfl
  | cons t ts ih =>
    intro n
    have ht := h t (by simp)
    have hts : ∀ u ∈ ts, u.wordID = none := fun u hu => h u (by simp [hu])
    simp [addWordIDsFrom, setIDsFrom, ht, ih hts (n + 1)]

theorem setIDsFrom_length (n : Nat) (sent : List Token) :
    (setIDsFrom n sent).length = sent.length := by
  induction sent generalizing n with
  | nil => rfl
  | cons t ts ih => simp [setIDsFrom, ih]

theorem setIDsFrom_get (sent : List Token) :
    ∀ n i (hi : i < (setIDsFrom n sent).length),
      ((setIDsFrom n sent).get ⟨i, hi⟩).wordID = some (n + i) := by
  induction sent with
  | nil => intro n i hi; simp [setIDsFrom] at hi
  | cons t ts ih =>
    intro n i hi
    cases i with
    | zero => simp [setIDsFrom]
    | succ j =>
      have hj : j < (setIDsFrom (n + 1) ts).length := by
        simpa [setIDsFrom] using Nat.lt_of_succ_lt_succ hi
      have := ih (n + 1) j hj
      simp only [setIDsFrom, List.get_cons_succ]
      rw [this]
      congr 1
      omega

/-- Re-running the numbering pass on its own output succeeds and changes
nothing (each token already carries the expected `wordID`). -/
theorem addWordIDsFrom_idem (sent : List Token) :
    ∀ n, addWordIDsFrom n (setIDsFrom n sent) = .ok (setIDsFrom n sent) := by
  induction sent with
  | nil => intro n; rfl
  | cons t ts ih =>
    intro n
    simp [setIDsFrom, addWordIDsFrom, ih (n + 1)]

/-- C7: on a sentence with no pre-existing `wordID`s, `addWordIDs` succeeds,
preserves the length, gives the token at each position `i` the `wordID`
`i`, and is idempotent: running it again on the result succeeds and
returns the result unchanged. -/
theorem addWordIDs_assigns_and_idempotent (sent : List Token)
    (h : ∀ t ∈ sent, t.wordID = none) :
    ∃ sent', addWordIDs sent = .ok sent' ∧ sent'.length = sent.length ∧
      (∀ i (hi : i < sent'.length), (sent'.get ⟨i, hi⟩).wordID = some i) ∧
      addWordIDs sent' = .ok sent' := by
  refine ⟨setIDsFrom 0 sent, addWordIDsFrom_fresh sent h 0, setIDsFrom_length 0 sent,
    ?_, addWordIDsFrom_idem sent 0⟩
  intro i hi
  simpa using setIDsFrom_get sent 0 i hi

/-- Witness for C7 on a concrete two-token sentence without `wordID`s. -/
theorem addWordIDs_assigns_and_idempotent_witness :
    (∀ t ∈ [Token.mk [("text", "a")] none none none, Token.mk [("text", "b")] none none none],
      t.wordID = none) ∧
    ∃ sent', addWordIDs [Token.mk [("text", "a")] none none none,
        Token.mk [("text", "b")] none none none] = .ok sent' ∧
      sent'.length = 2 ∧
      (∀ i (hi : i < sent'.length), (sent'.get ⟨i, hi⟩).wordID = some i) ∧
      addWordIDs sent' = .ok sent' :=
  ⟨by decide, addWordIDs_assigns_and_idempotent _ (by decide)⟩

/-- On a sentence in which every token carries a `wordID`, the range
extraction succeeds and returns the in-order filter of the tokens with
`a ≤ wordID < b`. -/
theorem getWordIDrange_filter (a b : Nat) (sent : List Token)
    (h : ∀ t ∈ sent, t.wordID.isSome) :
    getWordIDrange a b sent =
      .ok (sent.filter fun t => decide (a ≤ t.wordID.getD 0 ∧ t.wordID.getD 0 < b)) := by
  induction sent with
  | nil => rfl
  | cons t ts ih =>
    obtain ⟨w, hw⟩ := Option.isSome_iff_exists.mp (h t (by simp))
    have hts : ∀ u ∈ ts, u.wordID.isSome := fun u hu => h u (by simp [hu])
    by_cases hcond : a ≤ w ∧ w < b <;>
      simp [getWordIDrange, hw, ih hts, List.filter_cons, hcond]

/-- C8: on a sentence where every token carries a `wordID`,
`getWordIDrange a b` returns exactly the tokens whose `wordID` lies in
`[a, b)`, in original order; for a consistently indexed sentence the full
range `[0, N)` recovers the sentence, and the empty range `[k, k)` yields
the empty list. -/
theorem getWordIDrange_spec (a b : Nat) (sent : List Token)
    (h : ∀ t ∈ sent, t.wordID.isSome) :
    getWordIDrange a b sent =
      .ok (sent.filter fun t => decide (a ≤ t.wordID.getD 0 ∧ t.wordID.getD 0 < b)) ∧
    ((∀ i (hi : i < sent.length), (sent.get ⟨i, hi⟩).wordID = some i) →
      getWordIDrange 0 sent.length sent = .ok sent) ∧
    ∀ k, getWordIDrange k k sent = .ok [] := by
  refine ⟨getWordIDrange_filter a b sent h, ?_, ?_⟩
  · intro hidx
    rw [getWordIDrange_filter 0 sent.length sent h]
    congr 1
    rw [List.filter_eq_self]
    intro t ht
    obtain ⟨n, hn⟩ := List.mem_iff_get.mp ht
    have : t.wordID = some n.1 := by rw [← hn]; exact hidx n.1 n.2
    simp [this]
  · intro k
    rw [getWordIDrange_filter k k sent h]
    congr 1
    rw [List.filter_eq_nil_iff]
    intro t ht
    simp

/-- Witness for C8 on a concrete indexed two-token sentence. -/
theorem getWordIDrange_spec_witness :
    getWordIDrange 0 1 [Token.mk [] none (some 0) none, Token.mk [] none (some 1) none] =
      .ok [Token.mk [] none (some 0) none] ∧
    getWordIDrange 0 2 [Token.mk [] none (some 0) none, Token.mk [] none (some 1) none] =
      .ok [Token.mk [] none (some 0) none, Token.mk [] none (some 1) none] ∧
    getWordIDrange 1 1 [Token.mk [] none (some 0) none, Token.mk [] none (some 1) none] =
      .ok [] := by
  have h := getWordIDrange_spec 0 1
    [Token.mk [] none (some 0) none, Token.mk [] none (some 1) none] (by decide)
  exact ⟨by rw [h.1]; rfl, by simpa using h.2.1 (by decide), h.2.2 1⟩

/-- C10: `removeWordIDs` is not atomic on failure: if the tokens before
position `k > 0` all carry a `wordID` and the token at position `k` lacks
one, the call fails with the first `k` tokens already cleared and the rest
untouched. -/
theorem removeWordIDs_not_atomic (pre rest : List Token) (tk : Token)
    (hpos : 0 < pre.length)
    (hpre : ∀ t ∈ pre, t.wordID.isSome) (htk : tk.wordID = none) :
    removeWordIDs (pre ++ tk :: rest) =
      .failed (pre.map (fun t => { t with wordID := none }) ++ tk :: rest) := by
  clear hpos
  induction pre with
  | nil => simp [removeWordIDs, htk]
  | cons t pre' ih =>
    obtain ⟨w, hw⟩ := Option.isSome_iff_exists.mp (hpre t (by simp))
    have hpre' : ∀ u ∈ pre', u.wordID.isSome := fun u hu => hpre u (by simp [hu])
    simp [removeWordIDs, hw, ih hpre']

/-- Witness for C10: failure at position 1 leaves token 0 cleared. -/
theorem removeWordIDs_not_atomic_witness :
    removeWordIDs [Token.mk [("text", "a")] none (some 0) none,
        Token.mk [("text", "b")] none none none,
        Token.mk [("text", "c")] none (some 2) none] =
      .failed [Token.mk [("text", "a")] none none none,
        Token.mk [("text", "b")] none none none,
        Token.mk [("text", "c")] none (some 2) none] :=
  removeWordIDs_not_atomic [Token.mk [("text", "a")] none (some 0) none]
    [Token.mk [("text", "c")] none (some 2) none]
    (Token.mk [("text", "b")] none none none) (by decide) (by decide) (by decide)

-- ================================================================
--  Claim theorem: sequence queries (C6)
-- ================================================================

/-- The method `matchingTokens` returns a sublist of its input (input order, no
reordering or duplication). -/
theorem matchingTokens_sublist (wt : WordTemplate) (toks : List Token) :
    ∀ ts, wt.matchingTokens toks = .ok ts → ts.Sublist toks := by
  induction toks with
  | nil =>
    intro ts h
    injection h with h
    rw [← h]
  | cons t toks ih =>
    intro ts h
    cases hm : wt.matches t with
    | error e => simp [WordTemplate.matchingTokens, hm] at h
    | ok b =>
      cases hrec : wt.matchingTokens toks with
      | error e => simp [WordTemplate.matchingTokens, hm, hrec] at h
      | ok rest =>
        simp only [WordTemplate.matchingTokens, hm, hrec] at h
        injection h with h
        rw [← h]
        cases b with
        | true => exact List.Sublist.cons₂ t (ih rest hrec)
        | false => exact List.Sublist.cons t (ih rest hrec)

/-- Joint induction for the two sequence queries: starting the position
counter at `pre.length`, each returned position, shifted into `pre ++ toks`,
indexes the corresponding returned token; positions are strictly increasing
and bounded below by the starting counter. -/
theorem matchingFrom_correspond (wt : WordTemplate) (toks : List Token) :
    ∀ (pre : List Token) (ps : List Nat) (ts : List Token),
      matchingPositionsFrom wt pre.length toks = .ok ps →
      wt.matchingTokens toks = .ok ts →
      ps.map (fun k => (pre ++ toks)[k]?) = ts.map some ∧
      ps.Chain' (· < ·) ∧ ∀ k ∈ ps, pre.length ≤ k := by
  induction toks with
  | nil =>
    intro pre ps ts hp ht
    injection hp with hp
    injection ht with ht
    simp [← hp, ← ht]
  | cons t toks ih =>
    intro pre ps ts hp ht
    cases hm : wt.matches t with
    | error e =>
      simp [matchingPositionsFrom, hm] at hp
    | ok b =>
      cases hrec : matchingPositionsFrom wt (pre.length + 1) toks with
      | error e => simp [matchingPositionsFrom, hm, hrec] at hp
      | ok rest =>
        cases hrect : wt.matchingTokens toks with
        | error e => simp [WordTemplate.matchingTokens, hm, hrect] at ht
        | ok rest' =>
          simp only [matchingPositionsFrom, hm, hrec] at hp
          simp only [WordTemplate.matchingTokens, hm, hrect] at ht
          injection hp with hp
          injection ht with ht
          have hlen : (pre ++ [t]).length = pre.length + 1 := by simp
          have hih := ih (pre ++ [t]) rest rest' (by rw [hlen]; exact hrec) hrect
          obtain ⟨hmap, hchain, hbound⟩ := hih
          rw [List.append_assoc, List.singleton_append] at hmap
          have hbound' : ∀ k ∈ rest, pre.length + 1 ≤ k := by
            intro k hk
            have := hbound k hk
            simpa using this
          have hhead : (pre ++ t :: toks)[pre.length]? = some t := by
            rw [List.getElem?_append_right (Nat.le_refl pre.length)]
            simp
          cases b with
          | false =>
            have hp' : rest = ps := by simpa using hp
            have ht' : rest' = ts := by simpa using ht
            rw [← hp', ← ht']
            refine ⟨hmap, hchain, ?_⟩
            intro k hk
            exact Nat.le_of_succ_le (hbound' k hk)
          | true =>
            have hp' : pre.length :: rest = ps := by simpa using hp
            have ht' : t :: rest' = ts := by simpa using ht
            rw [← hp', ← ht']
            refine ⟨?_, ?_, ?_⟩
            · rw [List.map_cons, List.map_cons, hhead, hmap]
            · rw [List.chain'_cons']
              refine ⟨?_, hchain⟩
              intro m hm'
              have hmem : m ∈ rest := List.mem_of_mem_head? hm'
              exact Nat.lt_of_lt_of_le (Nat.lt_succ_self pre.length) (hbound' m hmem)
            · intro k hk
              rcases List.mem_cons.mp hk with hk | hk
              · rw [hk]
              · exact Nat.le_of_succ_le (hbound' k hk)

/-- C6: on the same (rule set, token list) pair, `matchingPositions` and
`matchingTokens` return lists of equal length whose entries correspond
(`toks[ps[j]] = ts[j]`, stated as a map equation); the positions are
strictly increasing and the tokens form a sublist of the input, so both
results follow input order with no reordering or deduplication. -/
theorem matchingPositions_matchingTokens_correspond (wt : WordTemplate)
    (toks : List Token) (ps : List Nat) (ts : List Token)
    (hp : wt.matchingPositions toks = .ok ps)
    (ht : wt.matchingTokens toks = .ok ts) :
    ps.length = ts.length ∧
    ps.map (fun k => toks[k]?) = ts.map some ∧
    ps.Chain' (· < ·) ∧ ts.Sublist toks := by
  have h := matchingFrom_correspond wt toks [] ps ts hp ht
  refine ⟨?_, ?_, h.2.1, matchingTokens_sublist wt toks ts ht⟩
  · have := congrArg List.length h.1
    simpa using this
  · simpa using h.1

/-- A verb-seeking rule set used by the C6 witness. -/
def wtVerb : WordTemplate := WordTemplate.init [("partofspeech", fun s => s == "V")]

/-- Concrete tokens used by the C6 witness. -/
def tokVerb : Token := Token.mk [] (some [⟨[("partofspeech", "V")]⟩]) none none

def tokNoun : Token := Token.mk [] (some [⟨[("partofspeech", "S")]⟩]) none none

/-- Witness for C6 on a concrete rule set and three-token list (tokens 0
and 2 match). -/
theorem matchingPositions_matchingTokens_correspond_witness :
    ([0, 2] : List Nat).length = ([tokVerb, tokVerb] : List Token).length ∧
    ([0, 2] : List Nat).map (fun k => [tokVerb, tokNoun, tokVerb][k]?) =
      ([tokVerb, tokVerb] : List Token).map some ∧
    ([0, 2] : List Nat).Chain' (· < ·) ∧
    List.Sublist [tokVerb, tokVerb] [tokVerb, tokNoun, tokVerb] :=
  matchingPositions_matchingTokens_correspond wtVerb [tokVerb, tokNoun, tokVerb]
    [0, 2] [tokVerb, tokVerb] rfl rfl

-- ================================================================
--  Claim theorem: clause grouping (C9)
-- ================================================================

/-- First-occurrence deduplication: the order in which a Python dict lists
its keys after inserting a sequence of keys. -/
def dedupKeepFirst (l : List Nat) : List Nat :=
  l.foldl (fun acc c => if c ∈ acc then acc else acc ++ [c]) []

/-- The helper `insertToken` leaves the key list unchanged when the key is present and
appends it otherwise. -/
theorem insertToken_map_fst (gs : List (Nat × List Token)) (c : Nat) (t : Token) :
    (insertToken gs c t).map Prod.fst =
      if c ∈ gs.map Prod.fst then gs.map Prod.fst else gs.map Prod.fst ++ [c] := by
  induction gs with
  | nil => simp [insertToken]
  | cons p rest ih =>
    obtain ⟨d, g⟩ := p
    by_cases hdc : d = c
    · simp [insertToken, hdc]
    · by_cases hmem : c ∈ rest.map Prod.fst
      · simp [insertToken, hdc, ih, hmem, Ne.symm hdc]
      · simp [insertToken, hdc, ih, hmem, Ne.symm hdc]

/-- Existing keys survive `insertToken`. -/
theorem insertToken_keys_sup (gs : List (Nat × List Token)) (c : Nat) (t : Token)
    (c' : Nat) (h : c' ∈ gs.map Prod.fst) : c' ∈ (insertToken gs c t).map Prod.fst := by
  rw [insertToken_map_fst]
  split
  · exact h
  · exact List.mem_append_left [c] h

/-- The inserted key is a key of the result. -/
theorem insertToken_key_mem (gs : List (Nat × List Token)) (c : Nat) (t : Token) :
    c ∈ (insertToken gs c t).map Prod.fst := by
  rw [insertToken_map_fst]
  split
  · assumption
  · simp

/-- The helper `insertToken` preserves key distinctness. -/
theorem insertToken_nodup_keys (gs : List (Nat × List Token)) (c : Nat) (t : Token)
    (h : (gs.map Prod.fst).Nodup) : ((insertToken gs c t).map Prod.fst).Nodup := by
  rw [insertToken_map_fst]
  split
  · exact h
  · next hmem => simp [List.nodup_append, h, hmem]

/-- Where each entry of `insertToken gs c t` comes from, assuming distinct
keys: an untouched entry of `gs` with a different key, or the entry for `c`
with `t` appended to its previous group (the empty group if `c` was
absent). -/
theorem insertToken_mem (gs : List (Nat × List Token)) (c : Nat) (t : Token)
    (hnd : (gs.map Prod.fst).Nodup) :
    ∀ p ∈ insertToken gs c t,
      (p.1 ≠ c ∧ p ∈ gs) ∨
      (p.1 = c ∧ ∃ g, p = (c, g ++ [t]) ∧
        ((c, g) ∈ gs ∨ (g = [] ∧ c ∉ gs.map Prod.fst))) := by
  induction gs with
  | nil =>
    intro p hp
    simp [insertToken] at hp
    right
    rw [hp]
    exact ⟨rfl, [], rfl, Or.inr ⟨rfl, by simp⟩⟩
  | cons q rest ih =>
    obtain ⟨d, g0⟩ := q
    have hnd' : (rest.map Prod.fst).Nodup := (List.nodup_cons.mp hnd).2
    have hdnotin : d ∉ rest.map Prod.fst := (List.nodup_cons.mp hnd).1
    intro p hp
    by_cases hdc : d = c
    · subst hdc
      simp only [insertToken, if_pos rfl] at hp
      rcases List.mem_cons.mp hp with hp | hp
      · right
        rw [hp]
        exact ⟨rfl, g0, rfl, Or.inl (List.mem_cons_self _ _)⟩
      · left
        have hp1 : p.1 ∈ rest.map Prod.fst := List.mem_map_of_mem Prod.fst hp
        refine ⟨?_, List.mem_cons_of_mem _ hp⟩
        intro hcontra
        rw [hcontra] at hp1
        exact hdnotin hp1
    · simp only [insertToken, if_neg hdc] at hp
      rcases List.mem_cons.mp hp with hp | hp
      · left
        rw [hp]
        exact ⟨hdc, List.mem_cons_self _ _⟩
      · rcases ih hnd' p hp with ⟨hne, hmem⟩ | ⟨hpc, g, hpg, hgor⟩
        · exact Or.inl ⟨hne, List.mem_cons_of_mem _ hmem⟩
        · refine Or.inr ⟨hpc, g, hpg, ?_⟩
          rcases hgor with hgor | ⟨hgnil, hcnot⟩
          · exact Or.inl (List.mem_cons_of_mem _ hgor)
          · refine Or.inr ⟨hgnil, ?_⟩
            simp only [List.map_cons, List.mem_cons]
            rintro (hcd | hcrest)
            · exact hdc hcd.symm
            · exact hcnot hcrest

/-- The key list of the clause-grouping fold is the corresponding
first-occurrence fold over the tokens' clause identifiers. -/
theorem foldl_insertToken_map_fst (toks : List Token) :
    ∀ gs : List (Nat × List Token),
      (toks.foldl (fun gs t => insertToken gs (t.clauseID.getD 0) t) gs).map Prod.fst =
        toks.foldl (fun ks t => if t.clauseID.getD 0 ∈ ks then ks else ks ++ [t.clauseID.getD 0])
          (gs.map Prod.fst) := by
  induction toks with
  | nil => intro gs; rfl
  | cons t ts ih =>
    intro gs
    simp only [List.foldl_cons]
    rw [ih, insertToken_map_fst]

/-- The first-occurrence fold keeps its accumulator duplicate-free. -/
theorem foldl_dedup_nodup (l : List Nat) :
    ∀ acc : List Nat, acc.Nodup →
      (l.foldl (fun acc c => if c ∈ acc then acc else acc ++ [c]) acc).Nodup := by
  induction l with
  | nil => intro acc h; exact h
  | cons c cs ih =>
    intro acc h
    simp only [List.foldl_cons]
    apply ih
    split
    · exact h
    · next hmem => simp [List.nodup_append, h, hmem]

/-- Invariant of the clause-grouping fold: if the accumulated groups are
exactly the in-order filters of the already-seen tokens `pre` (with every
clause identifier of `pre` present as a key), they stay so after folding
the remaining tokens. -/
theorem foldl_insertToken_groups (toks : List Token) :
    ∀ (gs : List (Nat × List Token)) (pre : List Token),
      (∀ t ∈ toks, t.clauseID.isSome) →
      (gs.map Prod.fst).Nodup →
      (∀ c : Nat, (∃ u ∈ pre, u.clauseID = some c) → c ∈ gs.map Prod.fst) →
      (∀ p ∈ gs, p.2 = pre.filter fun u => decide (u.clauseID = some p.1)) →
      ∀ p ∈ toks.foldl (fun gs t => insertToken gs (t.clauseID.getD 0) t) gs,
        p.2 = (pre ++ toks).filter fun u => decide (u.clauseID = some p.1) := by
  induction toks with
  | nil =>
    intro gs pre _ _ _ hgs p hp
    simpa using hgs p hp
  | cons t ts ih =>
    intro gs pre htoks hnd hkeys hgs p hp
    obtain ⟨c, hc⟩ := Option.isSome_iff_exists.mp (htoks t (by simp))
    have hgetd : t.clauseID.getD 0 = c := by rw [hc]; rfl
    simp only [List.foldl_cons, hgetd] at hp
    have hts : ∀ u ∈ ts, u.clauseID.isSome := fun u hu => htoks u (by simp [hu])
    have hnd' := insertToken_nodup_keys gs c t hnd
    have hkeys' : ∀ c' : Nat, (∃ u ∈ pre ++ [t], u.clauseID = some c') →
        c' ∈ (insertToken gs c t).map Prod.fst := by
      rintro c' ⟨u, hu, huc⟩
      rcases List.mem_append.mp hu with hu | hu
      · exact insertToken_keys_sup gs c t c' (hkeys c' ⟨u, hu, huc⟩)
      · have : u = t := by simpa using hu
        rw [this, hc] at huc
        injection huc with huc
        rw [← huc]
        exact insertToken_key_mem gs c t
    have hgs' : ∀ p ∈ insertToken gs c t,
        p.2 = (pre ++ [t]).filter fun u => decide (u.clauseID = some p.1) := by
      intro q hq
      rcases insertToken_mem gs c t hnd q hq with ⟨hne, hmem⟩ | ⟨hqc, g, hqg, hgor⟩
      · rw [hgs q hmem, List.filter_append]
        have : (decide (t.clauseID = some q.1)) = false := by
          simp [hc]
          intro hcontra
          exact hne hcontra.symm
        simp [this]
      · rcases hgor with hmem | ⟨hgnil, hcnot⟩
        · have hg := hgs (c, g) hmem
          rw [hqg, List.filter_append]
          show g ++ [t] =
            (pre.filter fun u => decide (u.clauseID = some c)) ++
              ([t].filter fun u => decide (u.clauseID = some c))
          rw [show g = pre.filter (fun u => decide (u.clauseID = some c)) from hg]
          simp [hc]
        · have hprenil : (pre.filter fun u => decide (u.clauseID = some c)) = [] := by
            rw [List.filter_eq_nil_iff]
            intro u hu
            simp only [decide_eq_true_eq]
            intro hcontra
            exact hcnot (hkeys c ⟨u, hu, hcontra⟩)
          rw [hqg, List.filter_append]
          show g ++ [t] =
            (pre.filter fun u => decide (u.clauseID = some c)) ++
              ([t].filter fun u => decide (u.clauseID = some c))
          rw [hgnil, hprenil]
          simp [hc]
    have := ih (insertToken gs c t) (pre ++ [t]) hts hnd' hkeys' hgs' p hp
    rw [List.append_assoc, List.singleton_append] at this
    exact this

/-- C9: on a sentence where every token carries a `clauseID`,
`getClausesByClauseIDs` succeeds with a duplicate-free mapping whose keys
appear in first-occurrence order of the clause identifiers, whose group at
key `c` is exactly the in-order sublist of the sentence's tokens with
`clauseID = c`, so that every token belongs exactly to the group keyed by
its own clause identifier.  (The Lean embedding is pure, so the input
sentence is unchanged by construction.) -/
theorem getClausesByClauseIDs_partition (sent : List Token)
    (h : ∀ t ∈ sent, t.clauseID.isSome) :
    ∃ groups, getClausesByClauseIDs sent = .ok groups ∧
      groups.map Prod.fst = dedupKeepFirst (sent.map fun t => t.clauseID.getD 0) ∧
      (groups.map Prod.fst).Nodup ∧
      (∀ p ∈ groups, p.2 = sent.filter fun u => decide (u.clauseID = some p.1)) ∧
      ∀ t ∈ sent, ∀ p ∈ groups, (t ∈ p.2 ↔ t.clauseID = some p.1) := by
  have hall : sent.all (fun t => t.clauseID.isSome) = true := by
    rw [List.all_eq_true]
    exact h
  have hkeysfold :
      (sent.foldl (fun gs t => insertToken gs (t.clauseID.getD 0) t) []).map Prod.fst =
        dedupKeepFirst (sent.map fun t => t.clauseID.getD 0) := by
    rw [foldl_insertToken_map_fst]
    unfold dedupKeepFirst
    rw [List.foldl_map]
    rfl
  have hgroups : ∀ p ∈ sent.foldl (fun gs t => insertToken gs (t.clauseID.getD 0) t) [],
      p.2 = sent.filter fun u => decide (u.clauseID = some p.1) := by
    intro p hp
    have := foldl_insertToken_groups sent [] [] h (by simp)
      (by rintro c ⟨u, hu, _⟩; simp at hu) (by intro p hp; simp at hp) p hp
    simpa using this
  refine ⟨sent.foldl (fun gs t => insertToken gs (t.clauseID.getD 0) t) [],
    by simp [getClausesByClauseIDs, hall], hkeysfold, ?_, hgroups, ?_⟩
  · rw [hkeysfold]
    unfold dedupKeepFirst
    exact foldl_dedup_nodup _ [] (List.nodup_nil)
  · intro t ht p hp
    rw [hgroups p hp, List.mem_filter]
    simp [ht]

/-- Witness for C9 on a concrete three-token sentence with clause
identifiers 7, 3, 7. -/
theorem getClausesByClauseIDs_partition_witness :
    ∃ groups, getClausesByClauseIDs
        [Token.mk [("text", "a")] none none (some 7),
          Token.mk [("text", "b")] none none (some 3),
          Token.mk [("text", "c")] none none (some 7)] = .ok groups ∧
      groups.map Prod.fst = dedupKeepFirst [7, 3, 7] ∧
      (groups.map Prod.fst).Nodup ∧
      (∀ p ∈ groups, p.2 =
        [Token.mk [("text", "a")] none none (some 7),
          Token.mk [("text", "b")] none none (some 3),
          Token.mk [("text", "c")] none none (some 7)].filter
            fun u => decide (u.clauseID = some p.1)) ∧
      ∀ t ∈ [Token.mk [("text", "a")] none none (some 7),
          Token.mk [("text", "b")] none none (some 3),
          Token.mk [("text", "c")] none none (some 7)],
        ∀ p ∈ groups, (t ∈ p.2 ↔ t.clauseID = some p.1) := by
  have h := getClausesByClauseIDs_partition
    [Token.mk [("text", "a")] none none (some 7),
      Token.mk [("text", "b")] none none (some 3),
      Token.mk [("text", "c")] none none (some 7)] (by decide)
  simpa using h

end Estnltk
